import Mathlib

/-!
Shallow embedding of the statistical-aggregation core of the `medulla/spineplot`
scripts: the confusion-matrix accumulation and normalization
(`src/spineplot/confusion.py`) and the efficiency/purity calculations
(`src/spineplot/pur_eff_analyzer.py`).  Machine floats that only carry integer
category labels are modelled as integers extended with the IEEE non-finite
values; real-valued quantities are modelled as rationals.
-/

namespace Medulla

/-! ### Binning (`plot_eff_by_var`)

`plot_eff_by_var` filters the signal dataframe to the configured range with
strict inequalities (`sig_df[var] > range[0]` and `sig_df[var] < range[-1]`),
then bins the variable with `pd.cut` on `np.linspace(lo, hi, nbins+1)` edges.
`pd.cut` uses its default `right=True`, so a value `v` lands in the bin with
edges `(a, b]` exactly when `a < v ≤ b`. -/

/-- An event row of the signal dataframe, reduced to the fields
`plot_eff_by_var` reads: the binned variable's value and the boolean
`reco_all_cuts_satisfied == 1`. -/
abbrev EffEvent := ℚ × Bool

/-- The filter step `sig_df[(sig_df[var] > lo) & (sig_df[var] < hi)]`. -/
def filterStep (lo hi : ℚ) (evs : List EffEvent) : List EffEvent :=
  evs.filter (fun e => decide (lo < e.1) && decide (e.1 < hi))

/-- `np.linspace lo hi (n+1)`: the `n+1` equally spaced bin edges used for the
efficiency binning, `edge i = lo + (hi - lo) * i / n`. -/
def linspace (lo hi : ℚ) (n : ℕ) : List ℚ :=
  (List.range (n + 1)).map (fun i => lo + (hi - lo) * i / n)

/-- `pd.cut` with default `right=True`: the index of the interval
`(edges[i], edges[i+1]]` containing `v`, or `none` when no interval does. -/
def pdCutIndex : List ℚ → ℚ → Option ℕ
  | a :: b :: rest, v =>
      if a < v ∧ v ≤ b then some 0
      else (pdCutIndex (b :: rest) v).map (· + 1)
  | _, _ => none

/-- `len(group)` for the group of bin `i` in the `groupby('var_q_eff')` loop. -/
def binTotal (edges : List ℚ) (evs : List EffEvent) (i : ℕ) : ℕ :=
  (evs.filter (fun e => pdCutIndex edges e.1 == some i)).length

/-- `len(group[group['reco_all_cuts_satisfied'] == 1])` for the group of
bin `i`. -/
def binPass (edges : List ℚ) (evs : List EffEvent) (i : ℕ) : ℕ :=
  (evs.filter (fun e => (pdCutIndex edges e.1 == some i) && e.2)).length

/-- The per-bin value appended to `vals`:
`len(group) / len(group[group['reco_all_cuts_satisfied'] == 1])`.
Python raises `ZeroDivisionError` when the divisor is zero, modelled as
`none`. -/
def binValCode (edges : List ℚ) (evs : List EffEvent) (i : ℕ) : Option ℚ :=
  if binPass edges evs i = 0 then none
  else some ((binTotal edges evs i : ℚ) / (binPass edges evs i : ℚ))

/-! ### Confusion matrix (`ConfusionMatrix` in `confusion.py`)

`add_sample` walks the per-category groups of a sample, skips groups whose
category key is not in `self._categories` (the `continue` runs before any
sklearn call), replaces `NaN` predicted labels via
`np.nan_to_num(predicted_labels, nan=-1)`, and adds
`sklearn.metrics.confusion_matrix(true_labels, predicted_labels,
labels=list(self._categories.keys()))` to the running matrix.  `nan_to_num`
also replaces `+inf`/`-inf` — but with `±DBL_MAX`, not with `-1`.

`confusion_matrix` has two error paths that a kept group can hit:
* `_check_targets` runs first; a float `y_pred` entry that does not survive
  `astype(int)` round-tripping (any value outside the int64 range, such as
  the `±DBL_MAX` produced from `±inf`) makes `type_of_target` return
  `continuous` and the call raise
  `ValueError: ... mix of multiclass and continuous targets`;
* with an explicit `labels` list, a non-empty `y_true` sharing no element
  with `labels` raises
  `ValueError: At least one label specified must be in y_true`.
On the success path, every sample whose true or predicted label is outside
`labels` is silently dropped.  True labels carry integer category keys
(integer dtype), so only the predicted side can trip the continuous check
here. -/

/-- A predicted-label float: either a (integral) finite value or one of the
IEEE non-finite values that `np.nan_to_num` treats specially. -/
inductive PLabel where
  | val (v : ℤ)
  | nan
  | posinf
  | neginf
deriving DecidableEq, Repr

/-- `DBL_MAX = 1.7976931348623157e308`, the replacement `np.nan_to_num` uses
for `+inf`; exactly `2^1024 - 2^971`, written as a literal so that concrete
matrices evaluate by `decide`. -/
def maxFloat : ℤ := 179769313486231570814527423731704356798070567525844996598917476803157260780028538760589558632766878171540458953514382464234321326889464182768467546703537516986049910576551282076245490090389328944075868508455133942304583236903222948165808559332123348274797826204144723168738177180919299881250404026184124858368

/-- `np.nan_to_num(x, nan=-1)` on one predicted label: `NaN ↦ -1`,
`+inf ↦ DBL_MAX`, `-inf ↦ -DBL_MAX`, finite values unchanged. -/
def nanToNum : PLabel → ℤ
  | .val v => v
  | .nan => -1
  | .posinf => maxFloat
  | .neginf => -maxFloat

/-- One cell of `sklearn.metrics.confusion_matrix(ts, ps, labels=cats)` on
the success path (the error paths are `groupRaises` below): the number of
samples with exactly this (true, predicted) pair; when the call completes,
samples whose true or predicted label is outside `cats` are counted
nowhere. -/
def cmCell (cats : List ℤ) (evs : List (ℤ × ℤ)) (t p : ℤ) : ℕ :=
  if t ∈ cats ∧ p ∈ cats then
    (evs.filter (fun e => e.1 == t && e.2 == p)).length
  else 0

/-- The running confusion matrix, as a cell function over category keys. -/
abbrev CMatrix := ℤ → ℤ → ℕ

/-- The all-zeros matrix `np.zeros((len(categories), len(categories)))`. -/
def zeroMatrix : CMatrix := fun _ _ => 0

/-- One per-category data group handed to `add_sample`: the group's category
key and its rows of (true label, predicted label). -/
abbrev Group := ℤ × List (ℤ × PLabel)

/-- The data of one `add_sample` call: the per-category groups of
`sample.get_data(...)`. -/
abbrev Batch := List Group

/-- The matrix increment contributed by one kept group:
`confusion_matrix(true_labels, np.nan_to_num(predicted_labels, nan=-1),
labels=cats)`. -/
def groupContrib (cats : List ℤ) (evs : List (ℤ × PLabel)) (t p : ℤ) : ℕ :=
  cmCell cats (evs.map (fun e => (e.1, nanToNum e.2))) t p

/-- One iteration of the `add_sample` loop: `continue` when the group's
category key is not registered, otherwise
`self._confusion_matrix += confusion_matrix(...)`. -/
def addGroup (cats : List ℤ) (acc : CMatrix) (g : Group) : CMatrix :=
  if g.1 ∈ cats then fun t p => acc t p + groupContrib cats g.2 t p
  else acc

/-- `ConfusionMatrix.add_sample` restricted to the success path (no sklearn
`ValueError`): fold over the groups, skipping any group whose category key is
not registered, and add the group's sklearn confusion matrix to the running
matrix.  `addSampleE` below is the faithful entry point that also models the
error paths. -/
def addSample (cats : List ℤ) (M : CMatrix) (batch : Batch) : CMatrix :=
  batch.foldl (addGroup cats) M

/-- Whether an integer value survives the numpy `astype(int)` round trip,
i.e. is representable as an `int64`. -/
def int64Rep (v : ℤ) : Bool :=
  decide (-(2 ^ 63) ≤ v) && decide (v < 2 ^ 63)

/-- The `_check_targets` error path: after `nan_to_num`, a predicted-label
array containing a float outside the int64 range (in particular the
`±DBL_MAX` images of `±inf`) is classified `continuous` and
`confusion_matrix` raises `ValueError`. -/
def groupContinuousRaise (evs : List (ℤ × PLabel)) : Bool :=
  evs.any (fun e => !int64Rep (nanToNum e.2))

/-- The labels error path: with a non-empty `y_true` sharing no element with
`labels`, `confusion_matrix` raises
`ValueError: At least one label specified must be in y_true`
(an empty `y_true` instead returns the zero matrix). -/
def groupIntersectRaise (cats : List ℤ) (evs : List (ℤ × PLabel)) : Bool :=
  !evs.isEmpty && evs.all (fun e => !cats.contains e.1)

/-- Whether the `confusion_matrix` call for one kept group raises. -/
def groupRaises (cats : List ℤ) (evs : List (ℤ × PLabel)) : Bool :=
  groupContinuousRaise evs || groupIntersectRaise cats evs

/-- `ConfusionMatrix.add_sample` with its error paths: groups with an
unregistered category key are skipped by the `continue` before sklearn is
called; a kept group whose `confusion_matrix` call raises aborts the whole
call (`none`), otherwise the group's matrix is added and the fold
continues. -/
def addSampleE (cats : List ℤ) (M : CMatrix) : Batch → Option CMatrix
  | [] => some M
  | g :: bs =>
    if g.1 ∈ cats then
      if groupRaises cats g.2 then none
      else addSampleE cats (addGroup cats M g) bs
    else addSampleE cats M bs

/-! ### Normalized view (`ConfusionMatrix.draw`)

`draw` copies the integer matrix to float, deletes the row of the null key
(`labels.index(-1)`), optionally deletes the null column, then normalizes the
rows with `np.divide(cm, row_sums, where=row_sums != 0)`.  With no `out=`
argument, `np.divide` leaves the output cells where the condition is false
uninitialized; the `fill` parameter below stands for whatever the freshly
allocated buffer happens to contain at those cells. -/

/-- `cm.sum(axis=1)` for a single row. -/
def rowSum (r : List ℚ) : ℚ := r.foldl (· + ·) 0

/-- `np.divide(cm, row_sums, where=row_sums != 0)` with `out=None`: cells of
rows whose sum is zero are left uninitialized (value `fill`). -/
def npDivideWhere (fill : ℚ) (m : List (List ℚ)) : List (List ℚ) :=
  m.map (fun r => r.map (fun c => if rowSum r ≠ 0 then c / rowSum r else fill))

/-- The matrix part of `ConfusionMatrix.draw` up to the row normalization:
delete the null row (`np.delete(cm, nan_index, axis=0)`), delete the null
column too unless `showNull`, then apply the `np.divide` above. -/
def drawNormalize (fill : ℚ) (showNull : Bool) (cats : List ℤ)
    (cm : List (List ℚ)) : List (List ℚ) :=
  let nanIdx := cats.indexOf (-1)
  let cm1 := cm.eraseIdx nanIdx
  let cm2 := if showNull then cm1 else cm1.map (fun r => r.eraseIdx nanIdx)
  npDivideWhere fill cm2

/-! ### Purity (`calculate_purity`)

`calculate_purity` concatenates the `mc_nu` and `mc_cos` selected dataframes,
counts the rows with `true_category == 0` for the numerator, and scales by
`pot_onbeam / pot_mc` (MC) and `livetime_onbeam / livetime_offbeam`
(off-beam).  Events are reduced to the single column the function reads, the
`true_category` value. -/

/-- `calculate_purity(all_samples)`: the returned `pur` value.  `nu`, `cos`
and `off` are the `true_category` columns of the `mc_nu`, `mc_cos` and
`offbeam` selected dataframes. -/
def calculate_purity (nu cos off : List ℤ)
    (potOnbeam potMc livetimeOnbeam livetimeOffbeam : ℚ) : ℚ :=
  let selMc := nu ++ cos
  let matched := (potOnbeam / potMc) * ((selMc.filter (fun t => t == 0)).length : ℚ)
  let total := (potOnbeam / potMc) * (selMc.length : ℚ)
      + (livetimeOnbeam / livetimeOffbeam) * (off.length : ℚ)
  matched / total

/-- The denominator of `calculate_purity` (`total_selected_events`), exposed
so the degenerate-denominator condition can be stated. -/
def purityDenom (nu cos off : List ℤ)
    (potOnbeam potMc livetimeOnbeam livetimeOffbeam : ℚ) : ℚ :=
  (potOnbeam / potMc) * (((nu ++ cos).length : ℚ))
    + (livetimeOnbeam / livetimeOffbeam) * (off.length : ℚ)

/-- The purity formula as the specification words it: `scale_mc` times the
foreground count over `scale_mc` times the signal-like count plus `scale_bg`
times the background-like count, with `scale_mc = exposure_data /
exposure_mc` and `scale_bg = livetime_data / livetime_background`. -/
def purity_spec (nu cos off : List ℤ)
    (exposureData exposureMc livetimeData livetimeBackground : ℚ) : ℚ :=
  let scaleMc := exposureData / exposureMc
  let scaleBg := livetimeData / livetimeBackground
  scaleMc * (((nu ++ cos).filter (fun t => t == 0)).length : ℚ)
    / (scaleMc * (((nu ++ cos).length : ℚ)) + scaleBg * (off.length : ℚ))

/-! ### Efficiency by cut (`calculate_efficiency_by_cut`)

Each entry of `cuts` is a list of condition strings joined with `' & '` and
passed to `DataFrame.query`, i.e. the conjunction of the listed predicates;
the efficiency is `len(sig_df.query(cond)) / len(sig_df)`. -/

/-- The conjunction `DataFrame.query` evaluates for one cut: all listed
conditions hold. -/
def cutAll {ε : Type} (cuts : List (ε → Bool)) (e : ε) : Bool :=
  cuts.all (fun c => c e)

/-- `sig_df.query(cond_string)`: the rows satisfying every condition of the
cut. -/
def selByCut {ε : Type} (evs : List ε) (cuts : List (ε → Bool)) : List ε :=
  evs.filter (cutAll cuts)

/-- `eff = len(sel_by_cut) / len(sig_df)` for one cut of
`calculate_efficiency_by_cut`. -/
def effByCut {ε : Type} (evs : List ε) (cuts : List (ε → Bool)) : ℚ :=
  ((selByCut evs cuts).length : ℚ) / (evs.length : ℚ)

/-- Concrete predicate used to instantiate the by-cut theorems. -/
def cutP0 : ℕ → Bool := fun e => e == 0

/-- Second concrete predicate used to instantiate the by-cut theorems. -/
def cutP1 : ℕ → Bool := fun e => e ≤ 1

/-- A concrete cumulative cut sequence: the second cut extends the first by
conjunction. -/
def cutChain : List (List (ℕ → Bool)) := [[cutP0], [cutP0, cutP1]]

/-! ## Theorems -/

/-- Sanity check of the float-maximum literal: `maxFloat` is
`2^1024 - 2^971`. -/
theorem maxFloat_eq : maxFloat = 2 ^ 1024 - 2 ^ 971 := by
  norm_num [maxFloat]

/-- Sanity check of the edge layout: two equal-width efficiency bins over
`[0, 20]` have edges `0, 10, 20`. -/
theorem linspace_two_bins : linspace 0 20 2 = [0, 10, 20] := by
  norm_num [linspace, List.range_succ]

/-- C1 (code_bug evidence): at a bin holding two events of which one passes
the selection, the code's reported value is `total/pass = 2`, not the
claimed `pass_count / total_count = 1/2` — line 272 of
`pur_eff_analyzer.py` divides `len(group)` by the passing count instead of
the other way around. -/
theorem plot_eff_by_var_ratio_inverted :
    binTotal [0, 10] [((5 : ℚ), true), ((6 : ℚ), false)] 0 = 2
    ∧ binPass [0, 10] [((5 : ℚ), true), ((6 : ℚ), false)] 0 = 1
    ∧ binValCode [0, 10] [((5 : ℚ), true), ((6 : ℚ), false)] 0 = some 2
    ∧ some (2 : ℚ) ≠ some ((1 : ℚ) / 2) := by
  refine ⟨?_, ?_, ?_, ?_⟩ <;>
    norm_num [binValCode, binTotal, binPass, pdCutIndex, List.filter]

/-- C4 (code_bug evidence): a bin whose single event fails the selection has
`total_count = 1`, `pass_count = 0`, and the code's per-bin value is the
`ZeroDivisionError` case (`none`); likewise for a bin with no events at
all.  The code raises on such bins instead of reporting an undefined
ratio. -/
theorem plot_eff_by_var_raises_on_empty :
    binTotal [0, 10] [((5 : ℚ), false)] 0 = 1
    ∧ binPass [0, 10] [((5 : ℚ), false)] 0 = 0
    ∧ binValCode [0, 10] [((5 : ℚ), false)] 0 = none
    ∧ binTotal [0, 10] ([] : List EffEvent) 0 = 0
    ∧ binValCode [0, 10] ([] : List EffEvent) 0 = none := by
  refine ⟨?_, ?_, ?_, ?_, ?_⟩ <;>
    norm_num [binValCode, binTotal, binPass, pdCutIndex, List.filter]

/-- C3 (counterexample): with range `[0, 20]` and two efficiency bins
(edges `linspace 0 20 2 = [0, 10, 20]`), the in-range value `10` — exactly
the upper edge of the first bin — is assigned to bin `0`, the bin whose
upper edge it is, not to the next bin `1` as the claim states (`pd.cut`
defaults to right-closed intervals). -/
theorem pdCutIndex_upper_edge_counterexample :
    filterStep 0 20 [((10 : ℚ), true)] = [((10 : ℚ), true)]
    ∧ pdCutIndex (linspace 0 20 2) 10 = some 0
    ∧ some 0 ≠ (some 1 : Option ℕ) := by
  refine ⟨?_, ?_, by simp⟩
  · norm_num [filterStep, List.filter]
  · norm_num [linspace, List.range_succ, pdCutIndex]

/-- C3 (amended): the efficiency binning is right-closed: over strictly
increasing edges, a value exactly equal to a bin's upper edge is assigned
to that bin. -/
theorem pdCutIndex_upper_edge :
    ∀ (edges : List ℚ), edges.Sorted (· < ·) →
      ∀ (i : ℕ) (h : i + 1 < edges.length),
        pdCutIndex edges (edges.get ⟨i + 1, h⟩) = some i := by
  intro edges
  induction edges with
  | nil => intro _ i h; simp at h
  | cons a tl ih =>
    intro hs i h
    cases tl with
    | nil => simp at h
    | cons b rest =>
      match i with
      | 0 =>
        have hab : a < b := List.rel_of_sorted_cons hs b (by simp)
        show pdCutIndex (a :: b :: rest) b = some 0
        unfold pdCutIndex
        rw [if_pos ⟨hab, le_refl b⟩]
      | j + 1 =>
        have h' : j + 1 < (b :: rest).length := Nat.lt_of_succ_lt_succ h
        have hs' : (b :: rest).Sorted (· < ·) := hs.of_cons
        have hbv : b < (b :: rest).get ⟨j + 1, h'⟩ := by
          have h0 : ((⟨0, Nat.succ_pos _⟩ : Fin (b :: rest).length))
              < ⟨j + 1, h'⟩ := by
            simp [Fin.lt_def]
          simpa using hs'.get_strictMono h0
        have hrec := ih hs' j h'
        show pdCutIndex (a :: b :: rest) ((b :: rest).get ⟨j + 1, h'⟩)
            = some (j + 1)
        unfold pdCutIndex
        rw [if_neg (by rintro ⟨-, hle⟩; exact absurd hbv (not_lt.mpr hle))]
        rw [hrec]
        rfl

/-- Witness for the amended C3 theorem at edges `[0, 10, 20]` and the upper
edge `10` of bin `0`. -/
theorem pdCutIndex_upper_edge_witness :
    List.Sorted (· < ·) [(0 : ℚ), 10, 20]
    ∧ pdCutIndex [(0 : ℚ), 10, 20] 10 = some 0 := by
  have hs : List.Sorted (· < ·) [(0 : ℚ), 10, 20] := by
    norm_num [List.sorted_cons]
  exact ⟨hs, by
    simpa using pdCutIndex_upper_edge [(0 : ℚ), 10, 20] hs 0 (by norm_num)⟩

/-- C9 (counterexample): the pre-binning filter uses strict inequalities, so
an event whose value equals the lower range edge (or the upper one) is
excluded, contradicting the claim that boundary values are retained and
binned. -/
theorem filterStep_boundary_counterexample :
    filterStep 0 10 [((0 : ℚ), true)] = []
    ∧ filterStep 0 10 [((10 : ℚ), true)] = []
    ∧ ((0 : ℚ), true) ∉ filterStep 0 10 [((0 : ℚ), true)] := by
  refine ⟨?_, ?_, ?_⟩ <;> norm_num [filterStep, List.filter]

/-- C9 (amended): the pre-binning filter retains exactly the events whose
value lies strictly inside the range: `e` survives the filter iff it was
present and `lo < value < hi`; values equal to `lo` or `hi` are excluded. -/
theorem filterStep_mem :
    ∀ (lo hi : ℚ) (evs : List EffEvent) (e : EffEvent),
      e ∈ filterStep lo hi evs ↔ e ∈ evs ∧ lo < e.1 ∧ e.1 < hi := by
  intro lo hi evs e
  simp [filterStep, List.mem_filter]

/-- C2 (code_bug evidence): the row normalization in `draw` is
`np.divide(cm, row_sums, where=row_sums != 0)` with no `out=` argument, so
the cells of a zero-sum row keep whatever the freshly allocated output
buffer held (`fill`): with buffer contents `7` the zero-sum row of the
concrete matrix becomes `[7, 7, 7]`, with contents `0` it becomes
`[0, 0, 0]` — the result is indeterminate, not the claimed all-zero row. -/
theorem draw_zero_row_uninitialized :
    drawNormalize 7 true [0, 1, -1] [[1, 0, 0], [0, 0, 0], [0, 0, 0]]
        = [[1, 0, 0], [7, 7, 7]]
    ∧ drawNormalize 0 true [0, 1, -1] [[1, 0, 0], [0, 0, 0], [0, 0, 0]]
        = [[1, 0, 0], [0, 0, 0]]
    ∧ ([[(1 : ℚ), 0, 0], [7, 7, 7]] : List (List ℚ)) ≠ [[1, 0, 0], [0, 0, 0]] := by
  refine ⟨?_, ?_, by norm_num⟩ <;>
    norm_num [drawNormalize, npDivideWhere, rowSum]

/-- Pointwise view of one `addGroup` step. -/
theorem addGroup_apply (cats : List ℤ) (M : CMatrix) (g : Group) (t p : ℤ) :
    addGroup cats M g t p
      = M t p + (if g.1 ∈ cats then groupContrib cats g.2 t p else 0) := by
  unfold addGroup
  by_cases hg : g.1 ∈ cats <;> simp [hg]

/-- Pointwise view of `addSample`: the running matrix plus the sum of the
kept groups' contributions. -/
theorem addSample_apply (cats : List ℤ) (batch : Batch) :
    ∀ (M : CMatrix) (t p : ℤ),
      addSample cats M batch t p
        = M t p
          + (batch.map
              (fun g => if g.1 ∈ cats then groupContrib cats g.2 t p else 0)).sum := by
  induction batch with
  | nil => intro M t p; simp [addSample]
  | cons g bs ih =>
    intro M t p
    have hstep : addSample cats M (g :: bs) = addSample cats (addGroup cats M g) bs := rfl
    rw [hstep, ih (addGroup cats M g) t p, addGroup_apply]
    simp [Nat.add_assoc]

/-- Folding further batches continues the same fold. -/
theorem addSample_append (cats : List ℤ) (M : CMatrix) (b1 b2 : Batch) :
    addSample cats (addSample cats M b1) b2 = addSample cats M (b1 ++ b2) :=
  (List.foldl_append ..).symm

/-- When `add_sample` completes without raising, its result is the pure
success-path fold. -/
theorem addSampleE_eq_addSample (cats : List ℤ) :
    ∀ (batch : Batch) (M M' : CMatrix),
      addSampleE cats M batch = some M' → M' = addSample cats M batch := by
  intro batch
  induction batch with
  | nil =>
    intro M M' h
    simp only [addSampleE, Option.some_inj] at h
    simp [addSample, h]
  | cons g bs ih =>
    intro M M' h
    unfold addSampleE at h
    by_cases hg : g.1 ∈ cats
    · rw [if_pos hg] at h
      by_cases hr : groupRaises cats g.2 = true
      · rw [if_pos hr] at h
        exact absurd h (by simp)
      · rw [if_neg hr] at h
        exact ih (addGroup cats M g) M' h
    · rw [if_neg hg] at h
      have hskip : addGroup cats M g = M := by
        unfold addGroup
        rw [if_neg hg]
      show M' = addSample cats (addGroup cats M g) bs
      rw [hskip]
      exact ih M M' h

/-- C5 (counterexample): an event with predicted label `+inf` is not mapped
to the null key: `np.nan_to_num(x, nan=-1)` replaces infinities with
`±DBL_MAX`, which `_check_targets` classifies as a continuous target, so
the whole `add_sample` call raises `ValueError` — the event is never
counted in the null column (no matrix is produced at all). -/
theorem infinite_pred_not_null_counterexample :
    nanToNum PLabel.posinf ≠ -1
    ∧ groupContinuousRaise [(0, PLabel.posinf)] = true
    ∧ addSampleE [0, 1, -1] zeroMatrix [(0, [(0, PLabel.posinf)])] = none := by
  refine ⟨by decide, by decide, rfl⟩

/-- C5 (amended): an event whose predicted label is absent (`NaN`) is mapped
to the null key `-1` before cell lookup and counted in the null column of
its true-label row, and — provided every other predicted label of the group
is int64-representable — the call completes without raising; an event with
an infinite predicted label instead makes `add_sample` raise `ValueError`
(`nan_to_num` sends it to `±DBL_MAX`, which fails sklearn's target check). -/
theorem nan_pred_counted_in_null_column :
    ∀ (cats : List ℤ) (M : CMatrix) (c t : ℤ) (evs : List (ℤ × PLabel)),
      c ∈ cats → t ∈ cats → (-1 : ℤ) ∈ cats →
      (∀ e ∈ evs, int64Rep (nanToNum e.2) = true) →
      addSampleE cats M [(c, (t, PLabel.nan) :: evs)]
        = some (addSample cats M [(c, (t, PLabel.nan) :: evs)])
      ∧ addSample cats M [(c, (t, PLabel.nan) :: evs)] t (-1)
        = addSample cats M [(c, evs)] t (-1) + 1 := by
  intro cats M c t evs hc ht h1 hrep
  constructor
  · have hraise : groupRaises cats ((t, PLabel.nan) :: evs) = false := by
      have hcont : groupContinuousRaise ((t, PLabel.nan) :: evs) = false := by
        unfold groupContinuousRaise
        rw [List.any_eq_false]
        intro e he
        rw [List.mem_cons] at he
        have herep : int64Rep (nanToNum e.2) = true := by
          rcases he with h | h
          · rw [h]
            show int64Rep (nanToNum PLabel.nan) = true
            decide
          · exact hrep e h
        simp [herep]
      have hint : groupIntersectRaise cats ((t, PLabel.nan) :: evs) = false := by
        unfold groupIntersectRaise
        have : ((t, PLabel.nan) :: evs).all (fun e => !cats.contains e.1)
            = false := by
          rw [List.all_cons]
          have : cats.contains (t, PLabel.nan).1 = true :=
            List.elem_eq_true_of_mem ht
          rw [this]
          rfl
        rw [this, Bool.and_false]
      unfold groupRaises
      rw [hcont, hint]
      rfl
    show (if c ∈ cats then
        if groupRaises cats ((t, PLabel.nan) :: evs) then none
        else addSampleE cats (addGroup cats M (c, (t, PLabel.nan) :: evs)) []
      else addSampleE cats M []) = _
    rw [if_pos hc, hraise]
    rfl
  · have key : groupContrib cats ((t, PLabel.nan) :: evs) t (-1)
        = groupContrib cats evs t (-1) + 1 := by
      unfold groupContrib cmCell
      rw [if_pos ⟨ht, h1⟩, if_pos ⟨ht, h1⟩]
      simp [nanToNum, List.filter_cons]
    show addGroup cats M (c, (t, PLabel.nan) :: evs) t (-1)
        = addGroup cats M (c, evs) t (-1) + 1
    rw [addGroup_apply, addGroup_apply]
    dsimp only
    rw [if_pos hc, if_pos hc, key]
    omega

/-- Witness for the amended C5 theorem: a single NaN-predicted event with
true label `0` is accumulated without raising and lands in the cell
`(0, -1)`. -/
theorem nan_pred_counted_in_null_column_witness :
    (0 : ℤ) ∈ ([0, 1, -1] : List ℤ)
    ∧ (-1 : ℤ) ∈ ([0, 1, -1] : List ℤ)
    ∧ (addSampleE [0, 1, -1] zeroMatrix [(0, [((0 : ℤ), PLabel.nan)])]
        = some (addSample [0, 1, -1] zeroMatrix [(0, [((0 : ℤ), PLabel.nan)])])
      ∧ addSample [0, 1, -1] zeroMatrix [(0, [((0 : ℤ), PLabel.nan)])] 0 (-1)
        = addSample [0, 1, -1] zeroMatrix [(0, [])] 0 (-1) + 1) :=
  ⟨by decide, by decide,
    nan_pred_counted_in_null_column [0, 1, -1] zeroMatrix 0 0 []
      (by decide) (by decide) (by decide) (by simp)⟩

/-- C6 (counterexample): partition invariance fails on the code.  The batch
holding the events `(true=5, pred=0)` and `(true=0, pred=0)` in one group
accumulates successfully (the unknown true label `5` is dropped by the
label filter), but the partition that isolates the unknown-true event makes
`confusion_matrix` raise `At least one label specified must be in y_true`,
so the partitioned sequential run produces no matrix at all. -/
theorem addSample_partition_counterexample :
    (addSampleE [0, 1, -1] zeroMatrix
        [(0, [(5, PLabel.val 0), (0, PLabel.val 0)])]).isSome = true
    ∧ addSampleE [0, 1, -1] zeroMatrix [(0, [(5, PLabel.val 0)])] = none
    ∧ ((addSampleE [0, 1, -1] zeroMatrix [(0, [(5, PLabel.val 0)])]).bind
        (fun M1 => addSampleE [0, 1, -1] M1 [(0, [(0, PLabel.val 0)])])) = none := by
  refine ⟨rfl, rfl, rfl⟩

/-- C6 (amended): accumulation is associative and commutative among runs
that complete without raising: when the two sequential partitioned calls
and the single concatenated call all succeed, they yield cell-for-cell the
same matrix; a concatenated call and the reversed concatenation, when both
succeed, agree; and merging two independently accumulated matrices
element-wise agrees with the successful single call on the concatenation.
(Partitioning can still change whether accumulation raises at all.) -/
theorem addSample_partition :
    (∀ (cats : List ℤ) (M M1 M2 M12 : CMatrix) (b1 b2 : Batch),
      addSampleE cats M b1 = some M1 →
      addSampleE cats M1 b2 = some M2 →
      addSampleE cats M (b1 ++ b2) = some M12 →
      ∀ t p, M2 t p = M12 t p)
    ∧ (∀ (cats : List ℤ) (M M12 M21 : CMatrix) (b1 b2 : Batch),
      addSampleE cats M (b1 ++ b2) = some M12 →
      addSampleE cats M (b2 ++ b1) = some M21 →
      ∀ t p, M12 t p = M21 t p)
    ∧ (∀ (cats : List ℤ) (M1 M2 M12 : CMatrix) (b1 b2 : Batch),
      addSampleE cats zeroMatrix b1 = some M1 →
      addSampleE cats zeroMatrix b2 = some M2 →
      addSampleE cats zeroMatrix (b1 ++ b2) = some M12 →
      ∀ t p, M1 t p + M2 t p = M12 t p) := by
  refine ⟨?_, ?_, ?_⟩
  · intro cats M M1 M2 M12 b1 b2 h1 h2 h12 t p
    rw [addSampleE_eq_addSample cats b2 M1 M2 h2,
      addSampleE_eq_addSample cats b1 M M1 h1,
      addSampleE_eq_addSample cats (b1 ++ b2) M M12 h12,
      addSample_append]
  · intro cats M M12 M21 b1 b2 h12 h21 t p
    rw [addSampleE_eq_addSample cats (b1 ++ b2) M M12 h12,
      addSampleE_eq_addSample cats (b2 ++ b1) M M21 h21,
      addSample_apply, addSample_apply]
    simp [Nat.add_comm]
  · intro cats M1 M2 M12 b1 b2 h1 h2 h12 t p
    rw [addSampleE_eq_addSample cats b1 zeroMatrix M1 h1,
      addSampleE_eq_addSample cats b2 zeroMatrix M2 h2,
      addSampleE_eq_addSample cats (b1 ++ b2) zeroMatrix M12 h12,
      addSample_apply, addSample_apply, addSample_apply]
    simp [zeroMatrix]

/-- Witness for the amended C6 theorem: two singleton batches that both
accumulate successfully compose to the same cell values as the single
concatenated call. -/
theorem addSample_partition_witness :
    addSampleE [0, 1, -1] zeroMatrix [(0, [((0 : ℤ), PLabel.val 0)])]
        = some (addSample [0, 1, -1] zeroMatrix [(0, [((0 : ℤ), PLabel.val 0)])])
    ∧ addSampleE [0, 1, -1]
          (addSample [0, 1, -1] zeroMatrix [(0, [((0 : ℤ), PLabel.val 0)])])
          [(1, [((1 : ℤ), PLabel.val 1)])]
        = some (addSample [0, 1, -1]
            (addSample [0, 1, -1] zeroMatrix [(0, [((0 : ℤ), PLabel.val 0)])])
            [(1, [((1 : ℤ), PLabel.val 1)])])
    ∧ addSample [0, 1, -1]
          (addSample [0, 1, -1] zeroMatrix [(0, [((0 : ℤ), PLabel.val 0)])])
          [(1, [((1 : ℤ), PLabel.val 1)])] 0 0
        = addSample [0, 1, -1] zeroMatrix
            ([(0, [((0 : ℤ), PLabel.val 0)])] ++ [(1, [((1 : ℤ), PLabel.val 1)])]) 0 0 := by
  have h1 : addSampleE [0, 1, -1] zeroMatrix [(0, [((0 : ℤ), PLabel.val 0)])]
      = some (addSample [0, 1, -1] zeroMatrix [(0, [((0 : ℤ), PLabel.val 0)])]) := by
    rfl
  have h2 : addSampleE [0, 1, -1]
        (addSample [0, 1, -1] zeroMatrix [(0, [((0 : ℤ), PLabel.val 0)])])
        [(1, [((1 : ℤ), PLabel.val 1)])]
      = some (addSample [0, 1, -1]
          (addSample [0, 1, -1] zeroMatrix [(0, [((0 : ℤ), PLabel.val 0)])])
          [(1, [((1 : ℤ), PLabel.val 1)])]) := by
    rfl
  have h12 : addSampleE [0, 1, -1] zeroMatrix
        ([(0, [((0 : ℤ), PLabel.val 0)])] ++ [(1, [((1 : ℤ), PLabel.val 1)])])
      = some (addSample [0, 1, -1] zeroMatrix
          ([(0, [((0 : ℤ), PLabel.val 0)])] ++ [(1, [((1 : ℤ), PLabel.val 1)])])) := by
    rfl
  exact ⟨h1, h2, addSample_partition.1 _ _ _ _ _ _ _ h1 h2 h12 0 0⟩

/-- C7 (counterexample): accumulation does have a runtime failure mode.  A
registered group whose only event carries the unregistered true label `5`
makes `confusion_matrix([5], [0.0], labels=[0, 1, -1])` raise
`At least one label specified must be in y_true` instead of silently
skipping the event. -/
theorem addSample_unknown_true_raises_counterexample :
    (5 : ℤ) ∉ ([0, 1, -1] : List ℤ)
    ∧ groupIntersectRaise [0, 1, -1] [((5 : ℤ), PLabel.val 0)] = true
    ∧ addSampleE [0, 1, -1] zeroMatrix [(0, [((5 : ℤ), PLabel.val 0)])] = none :=
  ⟨by decide, by decide, rfl⟩

/-- C7 (amended): an event whose true-label key is not a registered category
is silently skipped — the matrix is unchanged by it and the call completes —
provided its group also contains an event with a registered true label (so
the sklearn label-intersection check passes) and every predicted label of
the group maps to an int64-representable value (so the target-type check
passes); a group violating either proviso makes accumulation raise
`ValueError`. -/
theorem addSample_skips_unknown_true :
    ∀ (cats : List ℤ) (M : CMatrix) (c : ℤ) (pre post : List (ℤ × PLabel))
      (t : ℤ) (p : PLabel),
      t ∉ cats →
      (∃ e ∈ pre ++ post, e.1 ∈ cats) →
      (∀ e ∈ pre ++ post, int64Rep (nanToNum e.2) = true) →
      int64Rep (nanToNum p) = true →
      addSampleE cats M [(c, pre ++ (t, p) :: post)]
        = some (addSample cats M [(c, pre ++ (t, p) :: post)])
      ∧ ∀ t' p',
          addSample cats M [(c, pre ++ (t, p) :: post)] t' p'
            = addSample cats M [(c, pre ++ post)] t' p' := by
  intro cats M c pre post t p ht hwit hrep hp
  constructor
  · by_cases hc : c ∈ cats
    · have hraise : groupRaises cats (pre ++ (t, p) :: post) = false := by
        have hcont : groupContinuousRaise (pre ++ (t, p) :: post) = false := by
          unfold groupContinuousRaise
          rw [List.any_eq_false]
          intro e he
          rw [List.mem_append, List.mem_cons] at he
          have herep : int64Rep (nanToNum e.2) = true := by
            rcases he with h | h | h
            · exact hrep e (List.mem_append.mpr (Or.inl h))
            · rw [h]
              show int64Rep (nanToNum p) = true
              exact hp
            · exact hrep e (List.mem_append.mpr (Or.inr h))
          simp [herep]
        have hint : groupIntersectRaise cats (pre ++ (t, p) :: post) = false := by
          unfold groupIntersectRaise
          obtain ⟨e, he, hecat⟩ := hwit
          have hein : e ∈ pre ++ (t, p) :: post := by
            rw [List.mem_append, List.mem_cons]
            rcases List.mem_append.mp he with h | h
            · exact Or.inl h
            · exact Or.inr (Or.inr h)
          have : (pre ++ (t, p) :: post).all (fun e => !cats.contains e.1)
              = false := by
            rw [List.all_eq_false]
            refine ⟨e, hein, ?_⟩
            simp [hecat]
          rw [this, Bool.and_false]
        unfold groupRaises
        rw [hcont, hint]
        rfl
      show (if c ∈ cats then
          if groupRaises cats (pre ++ (t, p) :: post) then none
          else addSampleE cats (addGroup cats M (c, pre ++ (t, p) :: post)) []
        else addSampleE cats M []) = _
      rw [if_pos hc, hraise]
      rfl
    · show (if c ∈ cats then
          if groupRaises cats (pre ++ (t, p) :: post) then none
          else addSampleE cats (addGroup cats M (c, pre ++ (t, p) :: post)) []
        else addSampleE cats M []) = _
      rw [if_neg hc]
      show some M = some (addGroup cats M (c, pre ++ (t, p) :: post))
      unfold addGroup
      rw [if_neg hc]
  · intro t' p'
    have key : groupContrib cats (pre ++ (t, p) :: post) t' p'
        = groupContrib cats (pre ++ post) t' p' := by
      unfold groupContrib cmCell
      by_cases hmem : t' ∈ cats ∧ p' ∈ cats
      · rw [if_pos hmem, if_pos hmem]
        have hne : (t == t') = false := by
          simp only [beq_eq_false_iff_ne]
          rintro rfl
          exact ht hmem.1
        simp [List.filter_append, List.filter_cons, hne]
      · rw [if_neg hmem, if_neg hmem]
    show addGroup cats M (c, pre ++ (t, p) :: post) t' p'
        = addGroup cats M (c, pre ++ post) t' p'
    rw [addGroup_apply, addGroup_apply, key]

/-- Witness for the amended C7 theorem: next to one registered-true event,
an event with unregistered true label `5` leaves the cell `(0, 0)` at the
value it gets without that event, and the call completes. -/
theorem addSample_skips_unknown_true_witness :
    (5 : ℤ) ∉ ([0, 1, -1] : List ℤ)
    ∧ (addSampleE [0, 1, -1] zeroMatrix
          [(0, [((0 : ℤ), PLabel.val 0), ((5 : ℤ), PLabel.val 0)])]
        = some (addSample [0, 1, -1] zeroMatrix
            [(0, [((0 : ℤ), PLabel.val 0), ((5 : ℤ), PLabel.val 0)])])
      ∧ addSample [0, 1, -1] zeroMatrix
            [(0, [((0 : ℤ), PLabel.val 0), ((5 : ℤ), PLabel.val 0)])] 0 0
          = addSample [0, 1, -1] zeroMatrix [(0, [((0 : ℤ), PLabel.val 0)])] 0 0) := by
  refine ⟨by decide, ?_⟩
  have h := addSample_skips_unknown_true [0, 1, -1] zeroMatrix 0
    [((0 : ℤ), PLabel.val 0)] [] 5 (PLabel.val 0)
    (by decide) (by decide) (by decide) (by decide)
  exact ⟨h.1, h.2 0 0⟩

/-- Filtering a constant list keeps all of it or none of it. -/
theorem filter_replicate_eq (n : ℕ) (a : ℤ) (p : ℤ → Bool) :
    (List.replicate n a).filter p = if p a then List.replicate n a else [] := by
  induction n with
  | zero => simp
  | succ n ih =>
    rw [List.replicate_succ, List.filter_cons, ih]
    by_cases h : p a <;> simp [h, List.replicate_succ]

/-- C8: `calculate_purity` is exactly the specification's formula (`scale_mc`
times the foreground count over the scaled total), the scenario with
`matched = 30`, scaled MC total `50` and scaled background total `10` gives
purity `1/2`, and the purity lies in `[0, 1]` whenever the scale factors are
non-negative and the denominator is positive. -/
theorem calculate_purity_correct :
    (∀ (nu cos off : List ℤ) (potOn potMc ltOn ltOff : ℚ),
      calculate_purity nu cos off potOn potMc ltOn ltOff
        = purity_spec nu cos off potOn potMc ltOn ltOff)
    ∧ (∀ (nu cos off : List ℤ) (potOn potMc ltOn ltOff : ℚ),
        0 ≤ potOn / potMc → 0 ≤ ltOn / ltOff →
        0 < purityDenom nu cos off potOn potMc ltOn ltOff →
        0 ≤ calculate_purity nu cos off potOn potMc ltOn ltOff
          ∧ calculate_purity nu cos off potOn potMc ltOn ltOff ≤ 1)
    ∧ calculate_purity (List.replicate 60 (0 : ℤ)) (List.replicate 40 1)
        (List.replicate 20 0) 1 2 1 2 = 1 / 2 := by
  refine ⟨fun nu cos off potOn potMc ltOn ltOff => rfl, ?_, ?_⟩
  · intro nu cos off potOn potMc ltOn ltOff h1 h2 h3
    have hcalc : calculate_purity nu cos off potOn potMc ltOn ltOff
        = (potOn / potMc) * (((nu ++ cos).filter (fun t => t == 0)).length : ℚ)
          / purityDenom nu cos off potOn potMc ltOn ltOff := rfl
    rw [hcalc]
    constructor
    · exact div_nonneg (mul_nonneg h1 (Nat.cast_nonneg _)) h3.le
    · rw [div_le_one h3]
      unfold purityDenom
      have hcount : (((nu ++ cos).filter (fun t => t == 0)).length : ℚ)
          ≤ ((nu ++ cos).length : ℚ) := by
        exact_mod_cast List.length_filter_le _ _
      have h4 : (potOn / potMc) * (((nu ++ cos).filter (fun t => t == 0)).length : ℚ)
          ≤ (potOn / potMc) * ((nu ++ cos).length : ℚ) :=
        mul_le_mul_of_nonneg_left hcount h1
      have h5 : (0 : ℚ) ≤ (ltOn / ltOff) * (off.length : ℚ) :=
        mul_nonneg h2 (Nat.cast_nonneg _)
      linarith
  · show (1 / 2 * (((List.replicate 60 (0 : ℤ) ++ List.replicate 40 1).filter
        (fun t => t == 0)).length : ℚ))
      / (1 / 2 * (((List.replicate 60 (0 : ℤ) ++ List.replicate 40 1).length : ℚ))
          + 1 / 2 * ((List.replicate 20 (0 : ℤ)).length : ℚ)) = 1 / 2
    rw [List.filter_append, filter_replicate_eq, filter_replicate_eq]
    norm_num

/-- Witness for C8 at the scenario inputs: the scale factors `1/2` are
non-negative, the denominator `60` is positive, and the purity obeys the
`[0, 1]` bounds there. -/
theorem calculate_purity_correct_witness :
    0 < purityDenom (List.replicate 60 (0 : ℤ)) (List.replicate 40 1)
        (List.replicate 20 0) 1 2 1 2
    ∧ (0 ≤ calculate_purity (List.replicate 60 (0 : ℤ)) (List.replicate 40 1)
          (List.replicate 20 0) 1 2 1 2
       ∧ calculate_purity (List.replicate 60 (0 : ℤ)) (List.replicate 40 1)
          (List.replicate 20 0) 1 2 1 2 ≤ 1) := by
  have hd : 0 < purityDenom (List.replicate 60 (0 : ℤ)) (List.replicate 40 1)
      (List.replicate 20 0) 1 2 1 2 := by
    unfold purityDenom
    norm_num
  exact ⟨hd, calculate_purity_correct.2.1 _ _ _ _ _ _ _
    (by norm_num) (by norm_num) hd⟩

/-- Extending a cut's predicate list can only shrink the selected subset. -/
theorem selByCut_append_length {ε : Type} (evs : List ε)
    (cuts ext : List (ε → Bool)) :
    (selByCut evs (cuts ++ ext)).length ≤ (selByCut evs cuts).length := by
  induction evs with
  | nil => simp [selByCut]
  | cons e es ih =>
    simp only [selByCut, List.filter_cons] at *
    have hsplit : cutAll (cuts ++ ext) e = (cutAll cuts e && cutAll ext e) := by
      simp [cutAll, List.all_append]
    rw [hsplit]
    cases hq : cutAll cuts e <;> cases hr : cutAll ext e <;> simp <;> omega

/-- C10: for a non-empty signal sample and a sequence of cumulative cuts —
each cut's predicate list extending the previous one by conjunction — the
per-cut efficiencies of `calculate_efficiency_by_cut` are monotonically
non-increasing and bounded above by the baseline value `1`. -/
theorem calculate_efficiency_by_cut_monotone :
    ∀ (ε : Type) (evs : List ε) (css : List (List (ε → Bool))),
      evs ≠ [] →
      (∀ (i : ℕ) (h : i + 1 < css.length), ∃ ext,
          css.get ⟨i + 1, h⟩ = css.get ⟨i, Nat.lt_of_succ_lt h⟩ ++ ext) →
      (∀ (i : ℕ) (h : i + 1 < css.length),
          effByCut evs (css.get ⟨i + 1, h⟩)
            ≤ effByCut evs (css.get ⟨i, Nat.lt_of_succ_lt h⟩))
      ∧ (∀ (i : ℕ) (h : i < css.length), effByCut evs (css.get ⟨i, h⟩) ≤ 1) := by
  intro ε evs css hne hchain
  have hlen : (0 : ℚ) < (evs.length : ℚ) := by
    exact_mod_cast List.length_pos.mpr hne
  constructor
  · intro i h
    obtain ⟨ext, hext⟩ := hchain i h
    rw [hext]
    unfold effByCut
    gcongr
    exact_mod_cast selByCut_append_length evs _ ext
  · intro i h
    unfold effByCut
    rw [div_le_one hlen]
    exact_mod_cast List.length_filter_le _ _

/-- Witness for C10 on the concrete chain `cutChain` over the sample
`[0, 1, 2]`. -/
theorem calculate_efficiency_by_cut_monotone_witness :
    effByCut [0, 1, 2] (cutChain.get ⟨1, by norm_num [cutChain]⟩)
      ≤ effByCut [0, 1, 2] (cutChain.get ⟨0, by norm_num [cutChain]⟩)
    ∧ effByCut [0, 1, 2] (cutChain.get ⟨0, by norm_num [cutChain]⟩) ≤ 1 := by
  have hne : ([0, 1, 2] : List ℕ) ≠ [] := by simp
  have hchain : ∀ (i : ℕ) (h : i + 1 < cutChain.length), ∃ ext,
      cutChain.get ⟨i + 1, h⟩ = cutChain.get ⟨i, Nat.lt_of_succ_lt h⟩ ++ ext := by
    intro i h
    match i with
    | 0 => exact ⟨[cutP1], rfl⟩
    | j + 1 =>
      simp [cutChain] at h
      omega
  have hmain := calculate_efficiency_by_cut_monotone ℕ [0, 1, 2] cutChain hne hchain
  exact ⟨hmain.1 0 (by norm_num [cutChain]), hmain.2 0 (by norm_num [cutChain])⟩

end Medulla
